/-
  Verification of the bitnuc 2-bit nucleotide codec.

  Shallow embedding of the Rust sources under src/:
    - src/error.rs                         (NucleotideError)
    - src/utils/packing/naive.rs           (naive::as_2bit)
    - src/utils/packing/avx.rs             (avx::as_2bit, 256-bit lanes modelled per byte)
    - src/utils/packing/sse.rs             (sse::as_2bit, 128-bit lanes modelled per byte)
    - src/utils/packing/aarch64.rs         (aarch64::as_2bit, NEON lanes modelled per byte)
    - src/utils/unpacking/naive.rs         (from_2bit)
    - src/utils/unpacking/aarch64.rs       (aarch64::from_2bit_simd)
    - src/utils/unpacking/avx.rs           (avx::from_2bit_simd, avx::from_2bit_multi_simd)
    - src/utils/mod.rs                     (encode)
    - src/utils/unpacking/mod.rs           (from_2bit_multi, scalar fallback path)
    - src/utils/functions/hamming/scalar.rs (hdist_scalar)
    - src/utils/functions/hamming/multi.rs (hdist, scalar fallback path)
    - src/utils/functions/split.rs         (split_packed)

  Machine integers are modelled as Nat; u64 overflow is marked by an explicit
  % 2^64 at the single place it can occur (the split carry shift).  Rust
  panics (integer underflow in the chunk count, out-of-bounds slice indexing)
  are modelled by an Option wrapper: `none` is a panic.
-/
import Mathlib

set_option maxHeartbeats 1000000

/-- src/error.rs: the NucleotideError enum.  The source defines exactly these
five variants (there is no Unsupported variant, although
src/utils/unpacking/mod.rs's fast_decode constructs NucleotideError::Unsupported). -/
inductive NucleotideError : Type where
  | InvalidBase (b : Nat)
  | SequenceTooLong (len : Nat)
  | InvalidLength (len : Nat)
  | IndexOutOfBounds (index : Nat) (length : Nat)
  | InvalidRange (start : Nat) (stop : Nat) (length : Nat)
deriving DecidableEq

deriving instance DecidableEq for Except

/-- The 2-bit code of an ASCII byte: the match arms of naive::as_2bit
(A/a = 0b00, C/c = 0b01, G/g = 0b10, T/t = 0b11), `none` for the
`invalid` arm. -/
def lookup2bit (b : Nat) : Option Nat :=
  if b = 65 ∨ b = 97 then some 0
  else if b = 67 ∨ b = 99 then some 1
  else if b = 71 ∨ b = 103 then some 2
  else if b = 84 ∨ b = 116 then some 3
  else none

/-- The byte-validity predicate used by the SIMD pack kernels:
`matches!(b, b'A' | b'a' | b'C' | b'c' | b'G' | b'g' | b'T' | b't')`. -/
def isValidBase (b : Nat) : Bool :=
  b == 65 || b == 97 || b == 67 || b == 99 || b == 71 || b == 103 || b == 84 || b == 116

/-- ASCII uppercasing (case folding used by the spec: `uppercase(s)`). -/
def toUpperAscii (b : Nat) : Nat :=
  if 97 ≤ b ∧ b ≤ 122 then b - 32 else b

/-- `uppercase(s)` from the spec, applied bytewise. -/
def uppercase (s : List Nat) : List Nat :=
  s.map toUpperAscii

namespace naive

/-- The packing loop of naive::as_2bit (src/utils/packing/naive.rs):
`packed |= (bits as u64) << (i * 2)` for each byte, erroring with
InvalidBase at the first byte outside the alphabet.  `i` is the running
index of `enumerate`, `packed` the accumulator.  No `% 2^64` is needed:
`bits < 4` and `i * 2 ≤ 62`, so the shift never exceeds 64 bits. -/
def as2bitGo : List Nat → Nat → Nat → Except NucleotideError Nat
  | [], _, packed => .ok packed
  | base :: rest, i, packed =>
    match lookup2bit base with
    | some bits => as2bitGo rest (i + 1) (packed ||| (bits <<< (i * 2)))
    | none => .error (.InvalidBase base)

/-- naive::as_2bit (src/utils/packing/naive.rs lines 4-20). -/
def as_2bit (seq : List Nat) : Except NucleotideError Nat :=
  if seq.length > 32 then .error (.SequenceTooLong seq.length)
  else as2bitGo seq 0 0

end naive

/-- One per-byte lane of the SIMD pack kernels: create_dual_pattern_mask
for C/c, G/g, T/t followed by set_bits, which selects 1, 2, 3 for the
matching mask and leaves the A-default 0 otherwise.  The lane semantics
of the vceq/vbsl (NEON) and _mm_cmpeq/_mm_and/_mm_or (SSE2/AVX2)
intrinsics is exact per-byte selection, which this function is. -/
def process_simd_chunk (b : Nat) : Nat :=
  if b = 67 ∨ b = 99 then 1
  else if b = 71 ∨ b = 103 then 2
  else if b = 84 ∨ b = 116 then 3
  else 0

/-- The per-byte code used by the scalar tails of the SIMD pack kernels
(`b'A' | b'a' => 0, ..., _ => unreachable!()`).  The unreachable arm is
modelled as 0; it can never be reached because the kernels validate every
byte before packing. -/
def tailLane (b : Nat) : Nat :=
  (lookup2bit b).getD 0

/-- The packing loop shared by the SIMD kernels: each processed byte at
absolute position `pos` contributes `laneCode b <<< (pos * 2)` to the
accumulator, exactly as `packed |= (val as u64) << ((chunk_idx + i) * 2)`
(SIMD part) and `packed |= bits << ((simd_len + i) * 2)` (scalar tail)
do in src/utils/packing/{avx,sse,aarch64}.rs. -/
def simdPackLoop (laneCode : Nat → Nat) : List Nat → Nat → Nat → Nat
  | [], _, packed => packed
  | b :: rest, pos, packed => simdPackLoop laneCode rest (pos + 1) (packed ||| (laneCode b <<< (pos * 2)))

namespace avx

/-- avx::as_2bit (src/utils/packing/avx.rs lines 76-128): length guard,
cutover to the naive kernel below 16 bytes, pre-validation reporting the
first invalid byte, then 16-byte SIMD chunks followed by a scalar tail. -/
def as_2bit (seq : List Nat) : Except NucleotideError Nat :=
  if seq.length > 32 then .error (.SequenceTooLong seq.length)
  else if seq.length < 16 then naive.as_2bit seq
  else
    match seq.find? (fun b => !(isValidBase b)) with
    | some invalid => .error (.InvalidBase invalid)
    | none =>
      let simdLen := seq.length - seq.length % 16
      .ok (simdPackLoop tailLane (seq.drop simdLen) simdLen
            (simdPackLoop process_simd_chunk (seq.take simdLen) 0 0))

end avx

namespace sse

/-- sse::as_2bit (src/utils/packing/sse.rs lines 79-132): like the AVX2
kernel but with an 8-byte cutover and 8-byte SIMD chunks. -/
def as_2bit (seq : List Nat) : Except NucleotideError Nat :=
  if seq.length > 32 then .error (.SequenceTooLong seq.length)
  else if seq.length < 8 then naive.as_2bit seq
  else
    match seq.find? (fun b => !(isValidBase b)) with
    | some invalid => .error (.InvalidBase invalid)
    | none =>
      let simdLen := seq.length - seq.length % 8
      .ok (simdPackLoop tailLane (seq.drop simdLen) simdLen
            (simdPackLoop process_simd_chunk (seq.take simdLen) 0 0))

end sse

namespace aarch64

/-- aarch64::as_2bit (src/utils/packing/aarch64.rs lines 76-128): the NEON
kernel, 8-byte cutover and 8-byte SIMD chunks. -/
def as_2bit (seq : List Nat) : Except NucleotideError Nat :=
  if seq.length > 32 then .error (.SequenceTooLong seq.length)
  else if seq.length < 8 then naive.as_2bit seq
  else
    match seq.find? (fun b => !(isValidBase b)) with
    | some invalid => .error (.InvalidBase invalid)
    | none =>
      let simdLen := seq.length - seq.length % 8
      .ok (simdPackLoop tailLane (seq.drop simdLen) simdLen
            (simdPackLoop process_simd_chunk (seq.take simdLen) 0 0))

end aarch64

/-- The 2-bit-to-ASCII table of the unpack kernels:
0 → b'A', 1 → b'C', 2 → b'G', 3 → b'T'.  The argument is always masked
by 0b11, so the final branch is only reached at 3 (the source marks other
values unreachable). -/
def baseOf (bits : Nat) : Nat :=
  if bits = 0 then 65 else if bits = 1 then 67 else if bits = 2 then 71 else 84

/-- from_2bit (src/utils/unpacking/naive.rs): guard `expected_size > 32`,
then append `LUT[(packed >> (i*2)) & 0b11]` for i = 0 .. expected_size-1
to the output buffer (append semantics: existing content preserved). -/
def from_2bit (packed : Nat) (expectedSize : Nat) (sequence : List Nat) :
    Except NucleotideError (List Nat) :=
  if expectedSize > 32 then .error (.InvalidLength expectedSize)
  else .ok (sequence ++ (List.range expectedSize).map (fun i => baseOf ((packed >>> (i * 2)) &&& 0b11)))

namespace aarch64

/-- unpack_8_bases (src/utils/unpacking/aarch64.rs): builds the 8 2-bit
indices of `packed` and translates them through the "ACGTACGT" vtbl1
lookup. -/
def unpack_8_bases (chunkData : Nat) : List Nat :=
  (List.range 8).map (fun i => baseOf ((chunkData >>> (i * 2)) &&& 0b11))

/-- process_remainder (src/utils/unpacking/aarch64.rs): appends
`LUT[(packed >> ((start + i) * 2)) & 0b11]` for i = 0 .. (stop-start)-1. -/
def process_remainder (packed start stop : Nat) : List Nat :=
  (List.range (stop - start)).map (fun i => baseOf ((packed >>> ((start + i) * 2)) &&& 0b11))

/-- aarch64::from_2bit_simd (src/utils/unpacking/aarch64.rs lines 32-63):
guard, 8-base SIMD chunks (`chunk_data = packed >> (chunk * 16)`), then
the scalar remainder. -/
def from_2bit_simd (packed expectedSize : Nat) (sequence : List Nat) :
    Except NucleotideError (List Nat) :=
  if expectedSize > 32 then .error (.InvalidLength expectedSize)
  else
    let simdChunks := expectedSize / 8
    let afterChunks := sequence ++
      (List.range simdChunks).flatMap (fun chunk => unpack_8_bases (packed >>> (chunk * 16)))
    let remainingStart := simdChunks * 8
    if remainingStart < expectedSize then
      .ok (afterChunks ++ process_remainder packed remainingStart expectedSize)
    else
      .ok afterChunks

end aarch64

namespace avx

/-- unpack_32_bases (src/utils/unpacking/avx.rs): the 32 2-bit indices of
`packed` through the replicated ACGT shuffle table. -/
def unpack_32_bases (packed : Nat) : List Nat :=
  (List.range 32).map (fun i => baseOf ((packed >>> (i * 2)) &&& 0b11))

/-- unpack_16_bases (src/utils/unpacking/avx.rs): 16 lanes of 2-bit
indices through the ACGT shuffle table. -/
def unpack_16_bases (packed : Nat) : List Nat :=
  (List.range 16).map (fun i => baseOf ((packed >>> (i * 2)) &&& 0b11))

/-- unpack_8_bases (src/utils/unpacking/avx.rs): the source fills 16
lanes; its callers only use the first 8 (`&temp[..8]`). -/
def unpack_8_bases (packed : Nat) : List Nat :=
  (List.range 16).map (fun i => baseOf ((packed >>> (i * 2)) &&& 0b11))

/-- process_remainder (src/utils/unpacking/avx.rs), same loop as the
aarch64 version. -/
def process_remainder (packed start stop : Nat) : List Nat :=
  (List.range (stop - start)).map (fun i => baseOf ((packed >>> ((start + i) * 2)) &&& 0b11))

/-- avx::from_2bit_simd (src/utils/unpacking/avx.rs lines 50-114): guard,
then the 32-base / 16-base / 8-base / scalar strategies by size class. -/
def from_2bit_simd (packed expectedSize : Nat) (sequence : List Nat) :
    Except NucleotideError (List Nat) :=
  if expectedSize > 32 then .error (.InvalidLength expectedSize)
  else if 32 ≤ expectedSize then
    .ok (sequence ++ (unpack_32_bases packed).take expectedSize)
  else if 16 ≤ expectedSize then
    let simdChunks := expectedSize / 16
    let s2 := sequence ++
      (List.range simdChunks).flatMap (fun chunk => (unpack_16_bases (packed >>> (chunk * 32))).take 16)
    .ok (s2 ++ process_remainder packed (simdChunks * 16) expectedSize)
  else if 8 ≤ expectedSize then
    let simdChunks := expectedSize / 8
    let s2 := sequence ++
      (List.range simdChunks).flatMap (fun chunk => (unpack_8_bases (packed >>> (chunk * 16))).take 8)
    .ok (s2 ++ process_remainder packed (simdChunks * 8) expectedSize)
  else
    .ok (sequence ++ process_remainder packed 0 expectedSize)

/-- avx::from_2bit_multi_simd (src/utils/unpacking/avx.rs lines 117-153):
decodes `n_bases / 32` full words from `ebuf`, then indexes
`ebuf[full_chunks]` for the partial tail.  The tail indexing panics when
`ebuf` is too short (modelled as `none`); there is no InvalidLength
check. -/
def from_2bit_multi_simd (ebuf : List Nat) (nBases : Nat) (sequence : List Nat) :
    Option (Except NucleotideError (List Nat)) :=
  let fullChunks := nBases / 32
  let s1 := sequence ++ (ebuf.take fullChunks).flatMap (fun chunk => unpack_32_bases chunk)
  let remainingBases := nBases % 32
  if remainingBases > 0 then
    match ebuf[fullChunks]? with
    | some lastChunk => some (.ok (s1 ++ (unpack_32_bases lastChunk).take remainingBases))
    | none => none
  else
    some (.ok s1)

end avx

/-- The main loop of encode (src/utils/mod.rs lines 22-43), indexed by the
number of remaining full-chunk iterations (`n_chunks - 1` at the top
call): each iteration packs `&sequence[l_bounds..l_bounds+32]`, the final
step packs `&sequence[l_bounds..]`.  The packing kernel is the naive
as_2bit; the dispatched SIMD kernels are proven bit-identical to it
below. -/
def encodeLoop (sequence : List Nat) : Nat → Nat → List Nat → Except NucleotideError (List Nat)
  | 0, lBounds, ebuf =>
    match naive.as_2bit (sequence.drop lBounds) with
    | .ok bits => .ok (ebuf ++ [bits])
    | .error e => .error e
  | k + 1, lBounds, ebuf =>
    match naive.as_2bit ((sequence.drop lBounds).take 32) with
    | .ok bits => encodeLoop sequence k (lBounds + 32) (ebuf ++ [bits])
    | .error e => .error e

/-- encode (src/utils/mod.rs lines 22-43).  `n_chunks = len.div_ceil(32)`;
the source then iterates `for _ in 0..n_chunks - 1`.  When the input is
empty, `n_chunks = 0` and `n_chunks - 1` underflows usize: a debug build
panics on the subtraction, a release build wraps and the first loop
iteration indexes `sequence[0..32]` out of bounds and panics.  Both are
modelled as `none`.  The buffer is cleared on entry, so the loop starts
from `[]`. -/
def encode (sequence : List Nat) : Option (Except NucleotideError (List Nat)) :=
  let nChunks := (sequence.length + 31) / 32
  if nChunks = 0 then none
  else some (encodeLoop sequence (nChunks - 1) 0 [])

/-- The `try_for_each(|component| from_2bit(*component, 32, dbuf))` loop of
from_2bit_multi, threading the output buffer. -/
def tryForEach32 : List Nat → List Nat → Except NucleotideError (List Nat)
  | [], dbuf => .ok dbuf
  | w :: ws, dbuf =>
    match from_2bit w 32 dbuf with
    | .ok dbuf2 => tryForEach32 ws dbuf2
    | .error e => .error e

/-- from_2bit_multi, scalar fallback path (src/utils/unpacking/mod.rs lines
29-48).  `n_chunks = n_bases.div_ceil(32)`; for `n_bases = 0` the source
evaluates `take(n_chunks - 1)` and `get(n_chunks - 1)` with `n_chunks = 0`,
so the subtraction underflows (debug builds panic; modelled as `none`).
Otherwise all but the last chunk decode 32 bases each, and the last chunk
decodes `rem` bases, with `get(n_chunks - 1)` yielding
Err(InvalidLength(n_bases)) when the buffer is too short. -/
def from_2bit_multi (ebuf : List Nat) (nBases : Nat) (dbuf : List Nat) :
    Option (Except NucleotideError (List Nat)) :=
  let nChunks := (nBases + 31) / 32
  if nChunks = 0 then none
  else
    let rem := if nBases % 32 = 0 then 32 else nBases % 32
    some (match tryForEach32 (ebuf.take (nChunks - 1)) dbuf with
      | .error e => .error e
      | .ok dbuf2 =>
        match ebuf[nChunks - 1]? with
        | none => .error (.InvalidLength nBases)
        | some component => from_2bit component rem dbuf2)

/-- LOWER_BITS from src/utils/functions/hamming/multi.rs and scalar.rs. -/
def LOWER_BITS : Nat := 0x5555555555555555

/-- UPPER_BITS from src/utils/functions/hamming/multi.rs and scalar.rs. -/
def UPPER_BITS : Nat := 0xAAAAAAAAAAAAAAAA

/-- `u64::count_ones`, fuel-structured so that it reduces by evaluation
(the fuel argument only decreases; at fuel `n` the recursion on `n / 2`
always terminates first). -/
def popCountFuel : Nat → Nat → Nat
  | 0, _ => 0
  | fuel + 1, n => if n = 0 then 0 else n % 2 + popCountFuel fuel (n / 2)

/-- `n.count_ones()` on u64 values. -/
def count_ones (n : Nat) : Nat :=
  popCountFuel n n

/-- hdist_scalar (src/utils/functions/hamming/scalar.rs lines 11-48).
`2^64 - 1` is `u64::MAX`. -/
def hdist_scalar (u v : Nat) (len : Nat) : Except NucleotideError Nat :=
  if len > 32 then .error (.InvalidLength len)
  else if len = 0 ∨ u = v then .ok 0
  else
    let validBits := len * 2
    let mask := if validBits = 64 then 2 ^ 64 - 1 else (1 <<< validBits) - 1
    let diff := (u ^^^ v) &&& mask
    if diff = 0 then .ok 0
    else
      let lowerDiffs := diff &&& LOWER_BITS &&& mask
      let upperDiffs := (diff &&& UPPER_BITS &&& mask) >>> 1
      let combinedDiffs := lowerDiffs ||| upperDiffs
      .ok (count_ones combinedDiffs)

/-- The scalar accumulation loop of hdist (src/utils/functions/hamming/multi.rs
lines 147-151): `total_dist += hdist_scalar(w1, w2, 32)?` over the zipped
full chunks. -/
def hdistFold : List (Nat × Nat) → Nat → Except NucleotideError Nat
  | [], total => .ok total
  | p :: ps, total =>
    match hdist_scalar p.1 p.2 32 with
    | .ok d => hdistFold ps (total + d)
    | .error e => .error e

/-- hdist (src/utils/functions/hamming/multi.rs lines 122-160), scalar
fallback path.  In the build without SIMD the guard
`total_dist == 0 && full_chunks > 0` before the scalar loop is always
equivalent to running the loop (total_dist is still its initial 0, and
for full_chunks = 0 the loop body runs zero times), so the loop is
modelled unconditionally.  `ebuf[full_chunks]` in the remainder step is
in bounds whenever it is reached, because `remaining_bases > 0` makes
`expected_chunks = full_chunks + 1 ≤ ebuf.len()`; it is modelled with
getD. -/
def hdist (ebuf1 ebuf2 : List Nat) (nBases : Nat) : Except NucleotideError Nat :=
  let expectedChunks := (nBases + 31) / 32
  if ebuf1.length < expectedChunks ∨ ebuf2.length < expectedChunks then
    .error (.InvalidLength nBases)
  else
    let fullChunks := nBases / 32
    match hdistFold ((ebuf1.zip ebuf2).take fullChunks) 0 with
    | .error e => .error e
    | .ok totalDist =>
      let remainingBases := nBases % 32
      if remainingBases > 0 then
        match hdist_scalar (ebuf1.getD fullChunks 0) (ebuf2.getD fullChunks 0) remainingBases with
        | .ok d => .ok (totalDist + d)
        | .error e => .error e
      else .ok totalDist

/-- The right-buffer loop of split_packed (src/utils/functions/split.rs
lines 83-94): push `carry | (curr >> right_shift)`, then
`carry = curr << (64 - right_shift)` (a u64 shift, hence the % 2^64) or 0
when the shift distance is 0.  Returns the buffer and the final carry. -/
def splitRightLoop : List Nat → Nat → Nat → List Nat → List Nat × Nat
  | [], _, carry, rbuf => (rbuf, carry)
  | curr :: rest, rightShift, carry, rbuf =>
    let shifted := carry ||| (curr >>> rightShift)
    let carry2 := if rightShift = 0 then 0 else (curr <<< (64 - rightShift)) % 2 ^ 64
    splitRightLoop rest rightShift carry2 (rbuf ++ [shifted])

/-- split_packed (src/utils/functions/split.rs lines 14-102).  The result
carries the final contents of (lbuf, rbuf); on the IndexOutOfBounds path
the source returns before clearing, so the input buffers are passed
through unchanged.  `ebuf[chunk_idx]` in the general case panics when out
of bounds (modelled as `none`); `reserve` calls are allocation-only and
have no observable effect. -/
def split_packed (ebuf : List Nat) (slen idx : Nat) (lbuf rbuf : List Nat) :
    Option (Except NucleotideError Unit × List Nat × List Nat) :=
  if idx > slen then
    some (.error (.IndexOutOfBounds idx slen), lbuf, rbuf)
  else
    if idx = 0 then some (.ok (), [], ebuf)
    else if idx = slen then some (.ok (), ebuf, [])
    else if ebuf.isEmpty then some (.ok (), [], [])
    else
      let rightChunks := if idx = slen then 0 else (slen - idx + 31) / 32
      let chunkIdx := idx / 32
      let bitIdx := (idx % 32) * 2
      let lbuf1 := if chunkIdx > 0 ∧ chunkIdx ≤ ebuf.length then ebuf.take chunkIdx else []
      let splitMask := if bitIdx = 0 then 0 else (1 <<< bitIdx) - 1
      match ebuf[chunkIdx]? with
      | none => none
      | some splitWord =>
        let lbuf2 := lbuf1 ++ [splitWord &&& splitMask]
        let r := splitRightLoop (ebuf.drop chunkIdx) bitIdx 0 []
        let rbuf2 := if r.2 ≠ 0 ∧ r.1.length < rightChunks then r.1 ++ [r.2] else r.1
        some (.ok (), lbuf2, rbuf2)

/-- The packed-word value of a chunk of valid bytes: base 0 in the two
least significant bits.  This is the common value computed by all pack
kernels on validated input. -/
def chunkCode : List Nat → Nat
  | [] => 0
  | b :: rest => tailLane b + 4 * chunkCode rest

/-- The number of positions at which two equal-length byte sequences
differ after ASCII case folding (the count the spec's hamming properties
refer to). -/
def mismatchCount : List Nat → List Nat → Nat
  | x :: xs, y :: ys => (if toUpperAscii x ≠ toUpperAscii y then 1 else 0) + mismatchCount xs ys
  | _, _ => 0

example : naive.as_2bit [65, 67, 71, 84] = .ok 228 := by decide
example : naive.as_2bit [97, 99, 103, 116] = .ok 228 := by decide
example : from_2bit 228 4 [] = .ok [65, 67, 71, 84] := by decide
example : hdist_scalar 1 2 2 = .ok 1 := by decide
example : count_ones 228 = 4 := by decide

/-- The word obtained by encoding a valid byte sequence, chunk by 32-byte
chunk (proof-level description of the encoder's output). -/
def encWords (s : List Nat) : List Nat :=
  if s.length ≤ 32 then [chunkCode s]
  else chunkCode (s.take 32) :: encWords (s.drop 32)
termination_by s.length
decreasing_by simp [List.length_drop]; omega

/-- The value computed by hdist on sufficiently long buffers: per-word
mismatch counts over the full 32-base chunks plus the masked remainder
word (proof-level description). -/
def hdistValue (wsa wsb : List Nat) (n : Nat) : Nat :=
  (((wsa.zip wsb).take (n / 32)).map (fun p => List.countP
      (fun i => decide ((p.1 >>> (i * 2)) &&& 3 ≠ (p.2 >>> (i * 2)) &&& 3)) (List.range 32))).sum
  + (if n % 32 > 0 then
      List.countP (fun i => decide (((wsa.getD (n / 32) 0) >>> (i * 2)) &&& 3
        ≠ ((wsb.getD (n / 32) 0) >>> (i * 2)) &&& 3)) (List.range (n % 32))
    else 0)

/- ------------------------------------------------------------------ -/
/- Byte-level lemmas                                                   -/
/- ------------------------------------------------------------------ -/

theorem valid_cases {b : Nat} (h : isValidBase b = true) :
    b = 65 ∨ b = 97 ∨ b = 67 ∨ b = 99 ∨ b = 71 ∨ b = 103 ∨ b = 84 ∨ b = 116 := by
  simp only [isValidBase, Bool.or_eq_true, beq_iff_eq] at h
  tauto

theorem lookup_of_valid {b : Nat} (h : isValidBase b = true) :
    lookup2bit b = some (tailLane b) := by
  rcases valid_cases h with rfl | rfl | rfl | rfl | rfl | rfl | rfl | rfl <;> rfl

theorem lookup_eq_none_iff (b : Nat) : lookup2bit b = none ↔ isValidBase b = false := by
  unfold lookup2bit isValidBase
  split_ifs with h1 h2 h3 h4 <;> simp_all <;> omega

theorem tailLane_lt4 (b : Nat) : tailLane b < 4 := by
  unfold tailLane lookup2bit
  split_ifs <;> simp

theorem process_eq_tailLane (b : Nat) : process_simd_chunk b = tailLane b := by
  unfold process_simd_chunk tailLane lookup2bit
  split_ifs <;> first | rfl | omega

theorem baseOf_tailLane {b : Nat} (h : isValidBase b = true) :
    baseOf (tailLane b) = toUpperAscii b := by
  rcases valid_cases h with rfl | rfl | rfl | rfl | rfl | rfl | rfl | rfl <;> decide

theorem tailLane_inj {x y : Nat} (hx : isValidBase x = true) (hy : isValidBase y = true) :
    (tailLane x = tailLane y ↔ toUpperAscii x = toUpperAscii y) := by
  rcases valid_cases hx with rfl | rfl | rfl | rfl | rfl | rfl | rfl | rfl <;>
    rcases valid_cases hy with rfl | rfl | rfl | rfl | rfl | rfl | rfl | rfl <;> decide

/- ------------------------------------------------------------------ -/
/- Packing lemmas                                                      -/
/- ------------------------------------------------------------------ -/

theorem four_pow_eq_two_pow (i : Nat) : (4 : Nat) ^ i = 2 ^ (2 * i) := by
  rw [Nat.pow_mul]

theorem lt_four_pow_succ {a p i : Nat} (ha : a < 4) (hp : p < 4 ^ i) :
    a * 4 ^ i + p < 4 ^ (i + 1) := by
  have h1 : a * 4 ^ i ≤ 3 * 4 ^ i := Nat.mul_le_mul_right _ (by omega)
  have h2 : (4 : Nat) ^ (i + 1) = 4 ^ i * 4 := by ring
  nlinarith

theorem or_eq_add_shift {p a i : Nat} (hp : p < 4 ^ i) :
    p ||| a * 4 ^ i = a * 4 ^ i + p := by
  rw [four_pow_eq_two_pow] at hp ⊢
  calc p ||| a * 2 ^ (2 * i) = (2 ^ (2 * i) * a) ||| p := by rw [Nat.or_comm, Nat.mul_comm]
    _ = 2 ^ (2 * i) * a + p := (Nat.mul_add_lt_is_or hp a).symm
    _ = a * 2 ^ (2 * i) + p := by rw [Nat.mul_comm]

theorem shiftLeft_double (a i : Nat) : a <<< (i * 2) = a * 4 ^ i := by
  rw [Nat.shiftLeft_eq, four_pow_eq_two_pow, Nat.mul_comm 2 i]

theorem chunkCode_lt (c : List Nat) : chunkCode c < 4 ^ c.length := by
  induction c with
  | nil => simp [chunkCode]
  | cons b rest ih =>
    have hb := tailLane_lt4 b
    have h2 : (4 : Nat) ^ (rest.length + 1) = 4 ^ rest.length * 4 := by ring
    simp only [chunkCode, List.length_cons]
    nlinarith

theorem chunkCode_append (a b : List Nat) :
    chunkCode (a ++ b) = chunkCode a + chunkCode b * 4 ^ a.length := by
  induction a with
  | nil => simp [chunkCode]
  | cons x rest ih =>
    show chunkCode (x :: (rest ++ b)) = chunkCode (x :: rest) + chunkCode b * 4 ^ (rest.length + 1)
    rw [chunkCode, chunkCode, ih]
    have h4 : (4 : Nat) ^ (rest.length + 1) = 4 ^ rest.length * 4 := by ring
    rw [h4]
    ring

theorem as2bitGo_ok : ∀ (c : List Nat), (∀ b ∈ c, isValidBase b = true) →
    ∀ i packed, packed < 4 ^ i →
    naive.as2bitGo c i packed = .ok (packed + chunkCode c * 4 ^ i) := by
  intro c
  induction c with
  | nil => intro _ i packed _; simp [naive.as2bitGo, chunkCode]
  | cons b rest ih =>
    intro hv i packed hp
    have hb : isValidBase b = true := hv b (by simp)
    rw [naive.as2bitGo, lookup_of_valid hb]
    simp only
    rw [shiftLeft_double, or_eq_add_shift hp]
    rw [ih (fun x hx => hv x (by simp [hx])) (i + 1) _
      (lt_four_pow_succ (tailLane_lt4 b) hp)]
    congr 1
    rw [chunkCode]
    have h4 : (4 : Nat) ^ (i + 1) = 4 ^ i * 4 := by ring
    rw [h4]
    ring

theorem as2bitGo_err : ∀ (c : List Nat) {v : Nat},
    c.find? (fun b => !(isValidBase b)) = some v →
    ∀ i packed, naive.as2bitGo c i packed = .error (.InvalidBase v) := by
  intro c
  induction c with
  | nil => intro v h; simp [List.find?] at h
  | cons b rest ih =>
    intro v h i packed
    cases hb : isValidBase b with
    | true =>
      rw [List.find?_cons_of_neg _ (by simp [hb])] at h
      rw [naive.as2bitGo, lookup_of_valid hb]
      exact ih h _ _
    | false =>
      rw [List.find?_cons_of_pos _ (by simp [hb])] at h
      cases h
      rw [naive.as2bitGo, (lookup_eq_none_iff b).mpr hb]

theorem find_none_valid {c : List Nat}
    (h : c.find? (fun b => !(isValidBase b)) = none) :
    ∀ b ∈ c, isValidBase b = true := by
  intro b hb
  have := List.find?_eq_none.mp h b hb
  simpa using this

theorem naive_as_2bit_ok {c : List Nat} (hv : ∀ b ∈ c, isValidBase b = true)
    (hl : c.length ≤ 32) : naive.as_2bit c = .ok (chunkCode c) := by
  unfold naive.as_2bit
  rw [if_neg (by omega)]
  rw [as2bitGo_ok c hv 0 0 (by simp)]
  simp

theorem simdPackLoop_spec : ∀ (c : List Nat) (pos packed : Nat), packed < 4 ^ pos →
    simdPackLoop tailLane c pos packed = packed + chunkCode c * 4 ^ pos := by
  intro c
  induction c with
  | nil => intro pos packed _; simp [simdPackLoop, chunkCode]
  | cons b rest ih =>
    intro pos packed hp
    rw [simdPackLoop, shiftLeft_double, or_eq_add_shift hp]
    rw [ih (pos + 1) _ (lt_four_pow_succ (tailLane_lt4 b) hp)]
    rw [chunkCode]
    have h4 : (4 : Nat) ^ (pos + 1) = 4 ^ pos * 4 := by ring
    rw [h4]
    ring

theorem simd_like_eq (seq : List Nat) (cut m : Nat) :
    (if seq.length > 32 then (.error (.SequenceTooLong seq.length) : Except NucleotideError Nat)
     else if seq.length < cut then naive.as_2bit seq
     else
       match seq.find? (fun b => !(isValidBase b)) with
       | some invalid => .error (.InvalidBase invalid)
       | none =>
         let simdLen := seq.length - seq.length % m
         .ok (simdPackLoop tailLane (seq.drop simdLen) simdLen
               (simdPackLoop process_simd_chunk (seq.take simdLen) 0 0)))
    = naive.as_2bit seq := by
  by_cases h32 : seq.length > 32
  · rw [if_pos h32]
    unfold naive.as_2bit
    rw [if_pos h32]
  · rw [if_neg h32]
    by_cases hcut : seq.length < cut
    · rw [if_pos hcut]
    · rw [if_neg hcut]
      cases hfind : seq.find? (fun b => !(isValidBase b)) with
      | some v =>
        unfold naive.as_2bit
        rw [if_neg h32, as2bitGo_err seq hfind 0 0]
      | none =>
        have hv := find_none_valid hfind
        rw [show process_simd_chunk = tailLane from funext process_eq_tailLane]
        rw [naive_as_2bit_ok hv (by omega)]
        have hlen : (seq.take (seq.length - seq.length % m)).length
            = seq.length - seq.length % m := by
          rw [List.length_take]
          exact min_eq_left (by omega)
        have h1 : simdPackLoop tailLane (seq.take (seq.length - seq.length % m)) 0 0
            = chunkCode (seq.take (seq.length - seq.length % m)) := by
          rw [simdPackLoop_spec _ 0 0 (by simp)]
          simp
        have h2 := chunkCode_append (seq.take (seq.length - seq.length % m))
          (seq.drop (seq.length - seq.length % m))
        rw [List.take_append_drop, hlen] at h2
        show Except.ok (simdPackLoop tailLane (seq.drop (seq.length - seq.length % m))
          (seq.length - seq.length % m)
          (simdPackLoop tailLane (seq.take (seq.length - seq.length % m)) 0 0)) = _
        have hb : chunkCode (seq.take (seq.length - seq.length % m))
            < 4 ^ (seq.length - seq.length % m) := by
          have hc := chunkCode_lt (seq.take (seq.length - seq.length % m))
          rwa [hlen] at hc
        rw [h1, simdPackLoop_spec _ _ _ hb, ← h2]

theorem avx_as_2bit_eq (seq : List Nat) : avx.as_2bit seq = naive.as_2bit seq := by
  unfold avx.as_2bit
  exact simd_like_eq seq 16 16

theorem sse_as_2bit_eq (seq : List Nat) : sse.as_2bit seq = naive.as_2bit seq := by
  unfold sse.as_2bit
  exact simd_like_eq seq 8 8

theorem aarch64_as_2bit_eq (seq : List Nat) : aarch64.as_2bit seq = naive.as_2bit seq := by
  unfold aarch64.as_2bit
  exact simd_like_eq seq 8 8

/- ------------------------------------------------------------------ -/
/- Unpacking lemmas                                                    -/
/- ------------------------------------------------------------------ -/

theorem range_flatMap_chunk {α : Type} (f : Nat → α) (k : Nat) :
    ∀ q, ((List.range q).flatMap fun c => (List.range k).map fun i => f (k * c + i))
      = (List.range (k * q)).map f := by
  intro q
  induction q with
  | zero => simp
  | succ q ih =>
    rw [List.range_succ, List.flatMap_append, ih, Nat.mul_succ, List.range_add,
      List.map_append, List.flatMap_cons, List.flatMap_nil, List.append_nil, List.map_map]
    rfl

theorem chunk_plus_remainder {α : Type} (f : Nat → α) (k q n : Nat) (h : q * k ≤ n) :
    ((List.range q).flatMap fun c => (List.range k).map fun i => f (k * c + i))
      ++ (List.range (n - q * k)).map (fun i => f (q * k + i))
    = (List.range n).map f := by
  rw [range_flatMap_chunk]
  have hn : n = k * q + (n - q * k) := by
    have hc : q * k = k * q := Nat.mul_comm q k
    omega
  conv_rhs => rw [hn]
  rw [List.range_add, List.map_append, List.map_map]
  rw [Nat.mul_comm k q]
  rfl

theorem aarch64_from_2bit_simd_eq (packed n : Nat) (s : List Nat) :
    aarch64.from_2bit_simd packed n s = from_2bit packed n s := by
  unfold aarch64.from_2bit_simd from_2bit
  by_cases h32 : n > 32
  · rw [if_pos h32, if_pos h32]
  · rw [if_neg h32, if_neg h32]
    have hinner : (fun chunk => aarch64.unpack_8_bases (packed >>> (chunk * 16)))
        = fun c => (List.range 8).map fun i => baseOf ((packed >>> ((8 * c + i) * 2)) &&& 0b11) := by
      funext c
      unfold aarch64.unpack_8_bases
      apply List.map_congr_left
      intro i _
      congr 2
      rw [← Nat.shiftRight_add]
      congr 1
      ring
    simp only [hinner]
    have hkey := chunk_plus_remainder (fun j => baseOf ((packed >>> (j * 2)) &&& 0b11))
      8 (n / 8) n (by omega)
    by_cases hrem : n / 8 * 8 < n
    · rw [if_pos hrem]
      unfold aarch64.process_remainder
      rw [List.append_assoc, hkey]
    · rw [if_neg hrem]
      have hq : n / 8 * 8 = n := by omega
      rw [← hkey]
      simp [hq]

theorem avx_from_2bit_simd_eq (packed n : Nat) (s : List Nat) :
    avx.from_2bit_simd packed n s = from_2bit packed n s := by
  unfold avx.from_2bit_simd from_2bit
  by_cases h32 : n > 32
  · rw [if_pos h32, if_pos h32]
  · rw [if_neg h32, if_neg h32]
    by_cases hn32 : 32 ≤ n
    · rw [if_pos hn32]
      have hn : n = 32 := by omega
      subst hn
      unfold avx.unpack_32_bases
      rw [List.take_of_length_le (by simp)]
    · rw [if_neg hn32]
      by_cases hn16 : 16 ≤ n
      · rw [if_pos hn16]
        have hinner : (fun chunk => (avx.unpack_16_bases (packed >>> (chunk * 32))).take 16)
            = fun c => (List.range 16).map
                fun i => baseOf ((packed >>> ((16 * c + i) * 2)) &&& 0b11) := by
          funext c
          unfold avx.unpack_16_bases
          rw [List.take_of_length_le (by simp)]
          apply List.map_congr_left
          intro i _
          congr 2
          rw [← Nat.shiftRight_add]
          congr 1
          ring
        simp only [hinner]
        have hkey := chunk_plus_remainder (fun j => baseOf ((packed >>> (j * 2)) &&& 0b11))
          16 (n / 16) n (by omega)
        unfold avx.process_remainder
        rw [List.append_assoc, hkey]
      · rw [if_neg hn16]
        by_cases hn8 : 8 ≤ n
        · rw [if_pos hn8]
          have hinner : (fun chunk => (avx.unpack_8_bases (packed >>> (chunk * 16))).take 8)
              = fun c => (List.range 8).map
                  fun i => baseOf ((packed >>> ((8 * c + i) * 2)) &&& 0b11) := by
            funext c
            unfold avx.unpack_8_bases
            rw [← List.map_take, List.take_range]
            apply List.map_congr_left
            intro i _
            congr 2
            rw [← Nat.shiftRight_add]
            congr 1
            ring
          simp only [hinner]
          have hkey := chunk_plus_remainder (fun j => baseOf ((packed >>> (j * 2)) &&& 0b11))
            8 (n / 8) n (by omega)
          unfold avx.process_remainder
          rw [List.append_assoc, hkey]
        · rw [if_neg hn8]
          unfold avx.process_remainder
          simp

/- ------------------------------------------------------------------ -/
/- 2-bit field arithmetic                                              -/
/- ------------------------------------------------------------------ -/

theorem field_eq (x i : Nat) : (x >>> (i * 2)) &&& 3 = x / 4 ^ i % 4 := by
  rw [Nat.shiftRight_eq_div_pow]
  have h1 : (2 : Nat) ^ (i * 2) = 4 ^ i := by
    rw [four_pow_eq_two_pow, Nat.mul_comm]
  rw [h1]
  rw [show (3 : Nat) = 2 ^ 2 - 1 from rfl, Nat.and_pow_two_sub_one_eq_mod]

theorem chunkCode_field : ∀ (c : List Nat) (i : Nat), i < c.length →
    chunkCode c / 4 ^ i % 4 = tailLane (c.getD i 0) := by
  intro c
  induction c with
  | nil => intro i h; simp at h
  | cons b rest ih =>
    intro i h
    cases i with
    | zero =>
      rw [List.getD_cons_zero, chunkCode, pow_zero, Nat.div_one]
      have := tailLane_lt4 b
      omega
    | succ i =>
      rw [List.getD_cons_succ, chunkCode]
      have h4 : (4 : Nat) ^ (i + 1) = 4 * 4 ^ i := by ring
      rw [h4, ← Nat.div_div_eq_div_mul]
      have hdiv : (tailLane b + 4 * chunkCode rest) / 4 = chunkCode rest := by
        have := tailLane_lt4 b
        omega
      rw [hdiv]
      exact ih i (by simpa using h)

theorem unpack_chunk : ∀ (c : List Nat), (∀ b ∈ c, isValidBase b = true) →
    (List.range c.length).map (fun i => baseOf ((chunkCode c >>> (i * 2)) &&& 0b11))
      = uppercase c := by
  intro c
  induction c with
  | nil => simp [uppercase]
  | cons b rest ih =>
    intro hv
    have hb : isValidBase b = true := hv b (by simp)
    have hupper : uppercase (b :: rest) = toUpperAscii b :: uppercase rest := rfl
    rw [hupper, show (b :: rest).length = rest.length + 1 from rfl,
      List.range_succ_eq_map, List.map_cons, List.map_map]
    congr 1
    · show baseOf ((chunkCode (b :: rest) >>> (0 * 2)) &&& 0b11) = toUpperAscii b
      rw [show (0b11 : Nat) = 3 from rfl, field_eq,
        chunkCode_field (b :: rest) 0 (by simp), List.getD_cons_zero]
      exact baseOf_tailLane hb
    · rw [← ih (fun x hx => hv x (by simp [hx]))]
      apply List.map_congr_left
      intro i _
      show baseOf ((chunkCode (b :: rest) >>> (Nat.succ i * 2)) &&& 0b11)
        = baseOf ((chunkCode rest >>> (i * 2)) &&& 0b11)
      rw [show (0b11 : Nat) = 3 from rfl, field_eq, field_eq]
      congr 1
      rw [chunkCode]
      have h4 : (4 : Nat) ^ (i + 1) = 4 * 4 ^ i := by ring
      rw [show Nat.succ i = i + 1 from rfl, h4, ← Nat.div_div_eq_div_mul]
      have hdiv : (tailLane b + 4 * chunkCode rest) / 4 = chunkCode rest := by
        have := tailLane_lt4 b
        omega
      rw [hdiv]

/- ------------------------------------------------------------------ -/
/- Stream encode lemmas                                                -/
/- ------------------------------------------------------------------ -/

theorem encodeLoop_drop : ∀ (k : Nat) (s : List Nat) (lB : Nat) (buf : List Nat),
    encodeLoop s k lB buf = encodeLoop (s.drop lB) k 0 buf := by
  intro k
  induction k with
  | zero => intro s lB buf; simp [encodeLoop]
  | succ k ih =>
    intro s lB buf
    rw [encodeLoop, encodeLoop]
    simp only [List.drop_zero]
    cases hbits : naive.as_2bit ((s.drop lB).take 32) with
    | ok w =>
      simp only
      rw [ih s (lB + 32), ih (s.drop lB) 32, List.drop_drop]
    | error e => simp

theorem encodeLoop_buf : ∀ (k : Nat) (t : List Nat) (lB : Nat) (buf : List Nat),
    encodeLoop t k lB buf = (encodeLoop t k lB []).map (fun ws => buf ++ ws) := by
  intro k
  induction k with
  | zero =>
    intro t lB buf
    rw [encodeLoop, encodeLoop]
    cases naive.as_2bit (t.drop lB) <;> simp [Except.map]
  | succ k ih =>
    intro t lB buf
    rw [encodeLoop, encodeLoop]
    cases naive.as_2bit ((t.drop lB).take 32) with
    | ok w =>
      simp only
      rw [ih t (lB + 32) (buf ++ [w]), ih t (lB + 32) ([] ++ [w])]
      cases encodeLoop t k (lB + 32) [] <;> simp [Except.map]
    | error e => simp [Except.map]

theorem encWords_eq_small {s : List Nat} (h2 : s.length ≤ 32) :
    encWords s = [chunkCode s] := by
  rw [encWords, if_pos h2]

theorem encWords_eq_big {s : List Nat} (h2 : 32 < s.length) :
    encWords s = chunkCode (s.take 32) :: encWords (s.drop 32) := by
  rw [encWords, if_neg (by omega)]

theorem encWords_length_aux : ∀ (N : Nat) (s : List Nat), s.length ≤ N → s ≠ [] →
    (encWords s).length = (s.length + 31) / 32 := by
  intro N
  induction N with
  | zero =>
    intro s h h2
    have hs : s.length = 0 := by omega
    rw [List.length_eq_zero] at hs
    exact absurd hs h2
  | succ N ih =>
    intro s h hne
    have hpos : 1 ≤ s.length := List.length_pos.mpr hne
    by_cases h32 : s.length ≤ 32
    · rw [encWords_eq_small h32]
      simp
      omega
    · rw [encWords_eq_big (by omega)]
      have hd : (s.drop 32).length = s.length - 32 := by simp
      have hrec := ih (s.drop 32) (by omega)
        (by rw [← List.length_pos, hd]; omega)
      rw [List.length_cons, hrec, hd]
      omega

theorem encWords_length {s : List Nat} (hne : s ≠ []) :
    (encWords s).length = (s.length + 31) / 32 :=
  encWords_length_aux s.length s le_rfl hne

theorem encode_valid_aux : ∀ (N : Nat) (s : List Nat), s.length ≤ N →
    (∀ b ∈ s, isValidBase b = true) → s ≠ [] →
    encode s = some (.ok (encWords s)) := by
  intro N
  induction N with
  | zero =>
    intro s h h2 hne
    have hs : s.length = 0 := by omega
    rw [List.length_eq_zero] at hs
    exact absurd hs hne
  | succ N ih =>
    intro s h hv hne
    have hpos : 1 ≤ s.length := List.length_pos.mpr hne
    simp only [encode]
    rw [if_neg (by omega)]
    by_cases h32 : s.length ≤ 32
    · have hc : (s.length + 31) / 32 - 1 = 0 := by omega
      rw [hc, encodeLoop]
      rw [List.drop_zero, naive_as_2bit_ok hv h32]
      rw [encWords_eq_small h32]
      rfl
    · have hc : (s.length + 31) / 32 - 1 = ((s.length - 32 + 31) / 32 - 1) + 1 := by omega
      rw [hc, encodeLoop]
      have hvt : ∀ b ∈ s.take 32, isValidBase b = true :=
        fun b hb => hv b (List.mem_of_mem_take hb)
      have htl : (s.take 32).length = 32 := by
        rw [List.length_take]
        exact min_eq_left (by omega)
      rw [List.drop_zero, naive_as_2bit_ok hvt (by omega)]
      simp only
      rw [encodeLoop_drop, encodeLoop_buf]
      have hdne : s.drop 32 ≠ [] := by
        rw [← List.length_pos, List.length_drop]
        omega
      have hlN : (s.drop 32).length ≤ N := by
        rw [List.length_drop]
        omega
      have hrec := ih (s.drop 32) hlN (fun b hb => hv b (List.mem_of_mem_drop hb)) hdne
      simp only [encode] at hrec
      have hne0 : ¬((s.drop 32).length + 31) / 32 = 0 := by
        rw [List.length_drop]
        omega
      rw [if_neg hne0] at hrec
      have hlen : ((s.drop 32).length + 31) / 32 - 1 = (s.length - 32 + 31) / 32 - 1 := by
        rw [List.length_drop]
      rw [hlen] at hrec
      rw [Option.some_inj.mp hrec]
      conv_rhs => rw [encWords_eq_big (by omega : 32 < s.length)]
      simp [Except.map]

theorem encode_valid {s : List Nat} (hv : ∀ b ∈ s, isValidBase b = true) (hne : s ≠ []) :
    encode s = some (.ok (encWords s)) :=
  encode_valid_aux s.length s le_rfl hv hne

/- ------------------------------------------------------------------ -/
/- Stream decode lemmas                                                -/
/- ------------------------------------------------------------------ -/

theorem from_2bit_ok {n : Nat} (w : Nat) (h : n ≤ 32) (dbuf : List Nat) :
    from_2bit w n dbuf
      = .ok (dbuf ++ (List.range n).map (fun i => baseOf ((w >>> (i * 2)) &&& 0b11))) := by
  unfold from_2bit
  rw [if_neg (by omega)]

theorem tryForEach32_ok : ∀ (ws dbuf : List Nat),
    tryForEach32 ws dbuf = .ok (dbuf ++
      ws.flatMap (fun w => (List.range 32).map (fun i => baseOf ((w >>> (i * 2)) &&& 0b11)))) := by
  intro ws
  induction ws with
  | nil => intro dbuf; simp [tryForEach32]
  | cons w rest ih =>
    intro dbuf
    rw [tryForEach32, from_2bit_ok w (by omega)]
    simp only
    rw [ih]
    rw [List.flatMap_cons, List.append_assoc]

theorem from_2bit_multi_cons {n : Nat} (h : 32 < n) (w : Nat) (ws dbuf : List Nat)
    (hlen : (n - 32 + 31) / 32 ≤ ws.length) :
    from_2bit_multi (w :: ws) n dbuf =
      from_2bit_multi ws (n - 32)
        (dbuf ++ (List.range 32).map (fun i => baseOf ((w >>> (i * 2)) &&& 0b11))) := by
  simp only [from_2bit_multi]
  have hA : ¬((n + 31) / 32 = 0) := by omega
  have hB : ¬((n - 32 + 31) / 32 = 0) := by omega
  rw [if_neg hA, if_neg hB]
  have h1 : (n + 31) / 32 - 1 = ((n - 32 + 31) / 32 - 1) + 1 := by omega
  rw [h1, List.take_succ_cons, tryForEach32, from_2bit_ok w (by omega)]
  simp only
  rw [List.getElem?_cons_succ]
  have h2 : (if n % 32 = 0 then 32 else n % 32)
      = (if (n - 32) % 32 = 0 then 32 else (n - 32) % 32) := by
    have hm : n % 32 = (n - 32) % 32 := by omega
    rw [hm]
  rw [h2]
  cases hW : ws[(n - 32 + 31) / 32 - 1]? with
  | none =>
    exfalso
    have := List.getElem?_eq_none_iff.mp hW
    omega
  | some comp => rfl

theorem decode_encWords_aux : ∀ (N : Nat) (s : List Nat), s.length ≤ N →
    (∀ b ∈ s, isValidBase b = true) → s ≠ [] → ∀ dbuf,
    from_2bit_multi (encWords s) s.length dbuf = some (.ok (dbuf ++ uppercase s)) := by
  intro N
  induction N with
  | zero =>
    intro s h h2 hne
    have hs : s.length = 0 := by omega
    rw [List.length_eq_zero] at hs
    exact absurd hs hne
  | succ N ih =>
    intro s h hv hne dbuf
    have hpos : 1 ≤ s.length := List.length_pos.mpr hne
    by_cases h32 : s.length ≤ 32
    · rw [encWords_eq_small h32]
      simp only [from_2bit_multi]
      rw [if_neg (by omega)]
      have hc : (s.length + 31) / 32 - 1 = 0 := by omega
      rw [hc]
      rw [List.take_zero, tryForEach32]
      simp only [List.getElem?_cons_zero]
      have hrem : (if s.length % 32 = 0 then 32 else s.length % 32) = s.length := by
        by_cases hq : s.length = 32
        · simp [hq]
        · have h1 : s.length % 32 = s.length := by omega
          rw [h1, if_neg (by omega)]
      rw [hrem, from_2bit_ok _ h32]
      rw [← unpack_chunk s hv]
    · have hlenw : (s.length - 32 + 31) / 32 ≤ (encWords (s.drop 32)).length := by
        have hdne2 : s.drop 32 ≠ [] := by
          rw [← List.length_pos, List.length_drop]
          omega
        rw [encWords_length hdne2, List.length_drop]
      rw [encWords_eq_big (by omega), from_2bit_multi_cons (by omega) _ _ _ hlenw]
      have hvt : ∀ b ∈ s.take 32, isValidBase b = true :=
        fun b hb => hv b (List.mem_of_mem_take hb)
      have htl : (s.take 32).length = 32 := by
        rw [List.length_take]
        exact min_eq_left (by omega)
      have hup : (List.range 32).map
          (fun i => baseOf ((chunkCode (s.take 32) >>> (i * 2)) &&& 0b11))
          = uppercase (s.take 32) := by
        have h0 := unpack_chunk (s.take 32) hvt
        rw [htl] at h0
        exact h0
      rw [hup]
      have hdne : s.drop 32 ≠ [] := by
        rw [← List.length_pos, List.length_drop]
        omega
      have hlN : (s.drop 32).length ≤ N := by
        rw [List.length_drop]
        omega
      have hrec := ih (s.drop 32) hlN (fun b hb => hv b (List.mem_of_mem_drop hb)) hdne
        (dbuf ++ uppercase (s.take 32))
      rw [List.length_drop] at hrec
      rw [hrec]
      have hsplit : uppercase s = uppercase (s.take 32) ++ uppercase (s.drop 32) := by
        unfold uppercase
        rw [← List.map_append, List.take_append_drop]
      rw [hsplit, List.append_assoc]

theorem decode_encWords {s : List Nat} (hv : ∀ b ∈ s, isValidBase b = true)
    (hne : s ≠ []) (dbuf : List Nat) :
    from_2bit_multi (encWords s) s.length dbuf = some (.ok (dbuf ++ uppercase s)) :=
  decode_encWords_aux s.length s le_rfl hv hne dbuf

/- ------------------------------------------------------------------ -/
/- popcount lemmas                                                     -/
/- ------------------------------------------------------------------ -/

theorem popCountFuel_congr : ∀ (f1 f2 n : Nat), n ≤ f1 → n ≤ f2 →
    popCountFuel f1 n = popCountFuel f2 n := by
  intro f1
  induction f1 with
  | zero =>
    intro f2 n h1 h2
    have hn : n = 0 := by omega
    subst hn
    cases f2 <;> simp [popCountFuel]
  | succ f1 ih =>
    intro f2 n h1 h2
    by_cases hn : n = 0
    · subst hn
      cases f2 <;> simp [popCountFuel]
    · obtain ⟨f2p, rfl⟩ : ∃ k, f2 = k + 1 := ⟨f2 - 1, by omega⟩
      rw [popCountFuel, popCountFuel, if_neg hn, if_neg hn]
      congr 1
      exact ih f2p (n / 2) (by omega) (by omega)

theorem popCountFuel_unfold {fuel n : Nat} (hn : n ≠ 0) :
    popCountFuel (fuel + 1) n = n % 2 + popCountFuel fuel (n / 2) := by
  rw [popCountFuel, if_neg hn]

theorem count_ones_step (m c : Nat) (hc : c < 2) :
    count_ones (4 * m + c) = c + count_ones m := by
  by_cases hm : m = 0
  · subst hm
    interval_cases c <;> rfl
  · have hx : 4 * m + c ≠ 0 := by omega
    unfold count_ones
    obtain ⟨f, hf⟩ : ∃ f, 4 * m + c = f + 1 := ⟨4 * m + c - 1, by omega⟩
    rw [hf, popCountFuel_unfold (by omega)]
    have h1 : (f + 1) % 2 = c := by omega
    have h2 : (f + 1) / 2 = 2 * m := by omega
    rw [h1, h2]
    obtain ⟨g, hg⟩ : ∃ g, f = g + 1 := ⟨f - 1, by omega⟩
    rw [hg, popCountFuel_unfold (by omega)]
    have h3 : 2 * m % 2 = 0 := by omega
    have h4 : 2 * m / 2 = m := by omega
    rw [h3, h4, popCountFuel_congr g m m (by omega) le_rfl]
    omega

/- ------------------------------------------------------------------ -/
/- Bit-parallel mask lemmas                                            -/
/- ------------------------------------------------------------------ -/

theorem and_trim {x Y m : Nat} (hx : x < 2 ^ m) : x &&& Y = x &&& (Y % 2 ^ m) := by
  have h1 : x &&& (2 ^ m - 1) = x := Nat.and_pow_two_sub_one_of_lt_two_pow hx
  calc x &&& Y = (x &&& (2 ^ m - 1)) &&& Y := by rw [h1]
    _ = x &&& ((2 ^ m - 1) &&& Y) := Nat.and_assoc x _ Y
    _ = x &&& (Y &&& (2 ^ m - 1)) := by rw [Nat.and_comm (2 ^ m - 1) Y]
    _ = x &&& (Y % 2 ^ m) := by rw [Nat.and_pow_two_sub_one_eq_mod]

theorem and_mask_step {d M : Nat} (hd : d < 2 ^ 64) (hM : M % 2 ^ 62 = M / 4) :
    d &&& M = 4 * ((d / 4) &&& M) + (d &&& (M &&& 3)) := by
  have hqd : (d &&& M) / 4 = (d / 4) &&& M := by
    have e1 : (d &&& M) / 4 = ((d &&& M) / 2) / 2 := by
      rw [Nat.div_div_eq_div_mul]
    rw [e1, Nat.and_div_two, Nat.and_div_two]
    have e2 : d / 2 / 2 = d / 4 := by rw [Nat.div_div_eq_div_mul]
    have e3 : M / 2 / 2 = M / 4 := by rw [Nat.div_div_eq_div_mul]
    rw [e2, e3]
    have hd4 : d / 4 < 2 ^ 62 := by
      have h64 : (2 : Nat) ^ 64 = 18446744073709551616 := by norm_num
      have h62 : (2 : Nat) ^ 62 = 4611686018427387904 := by norm_num
      rw [h64] at hd
      rw [h62]
      omega
    conv_rhs => rw [and_trim hd4, hM]
  have hmod : (d &&& M) % 4 = d &&& (M &&& 3) := by
    have e4 : (d &&& M) &&& 3 = (d &&& M) % 4 := by
      rw [show (3 : Nat) = 2 ^ 2 - 1 from rfl, Nat.and_pow_two_sub_one_eq_mod]
    rw [← e4, Nat.and_assoc]
  have := Nat.div_add_mod (d &&& M) 4
  omega

theorem lower_step {d : Nat} (hd : d < 2 ^ 64) :
    d &&& LOWER_BITS = 4 * ((d / 4) &&& LOWER_BITS) + (d &&& 1) := by
  have h := and_mask_step (M := LOWER_BITS) hd (by decide)
  rw [show LOWER_BITS &&& 3 = 1 from by decide] at h
  exact h

theorem upper_step {d : Nat} (hd : d < 2 ^ 64) :
    d &&& UPPER_BITS = 4 * ((d / 4) &&& UPPER_BITS) + (d &&& 2) := by
  have h := and_mask_step (M := UPPER_BITS) hd (by decide)
  rw [show UPPER_BITS &&& 3 = 2 from by decide] at h
  exact h

theorem two_mul_or (x y : Nat) : 2 * x ||| 2 * y = 2 * (x ||| y) := by
  have hz : (2 * x ||| 2 * y) % 2 = 0 := by
    have h1 : ¬((2 * x ||| 2 * y) % 2 = 1) := by
      rw [Nat.or_mod_two_eq_one]
      omega
    omega
  have hq : (2 * x ||| 2 * y) / 2 = x ||| y := by
    rw [Nat.or_div_two]
    congr 1 <;> omega
  have := Nat.div_add_mod (2 * x ||| 2 * y) 2
  omega

theorem four_mul_or (x y : Nat) : 4 * x ||| 4 * y = 4 * (x ||| y) := by
  rw [show (4 : Nat) * x = 2 * (2 * x) from by ring, show (4 : Nat) * y = 2 * (2 * y) from by ring,
    two_mul_or, two_mul_or]
  ring

theorem or_small_add {a : Nat} (x : Nat) (ha : a < 4) : 4 * x ||| a = 4 * x + a := by
  have h := (Nat.mul_add_lt_is_or (i := 2) (show a < 2 ^ 2 by omega) x).symm
  norm_num at h
  exact h

theorem and_upper_even (d : Nat) : (d &&& UPPER_BITS) % 2 = 0 := by
  have h1 : ¬((d &&& UPPER_BITS) % 2 = 1) := by
    rw [Nat.and_mod_two_eq_one]
    have h2 : UPPER_BITS % 2 = 0 := by decide
    omega
  omega

theorem and_two_even (d : Nat) : (d &&& 2) % 2 = 0 := by
  have h1 : ¬((d &&& 2) % 2 = 1) := by
    rw [Nat.and_mod_two_eq_one]
    omega
  omega

theorem comb_step {d : Nat} (hd : d < 2 ^ 64) :
    (d &&& LOWER_BITS) ||| ((d &&& UPPER_BITS) >>> 1)
      = ((d &&& 1) ||| ((d &&& 2) / 2))
        + 4 * (((d / 4) &&& LOWER_BITS) ||| (((d / 4) &&& UPPER_BITS) >>> 1)) := by
  have hL := lower_step hd
  have hU := upper_step hd
  have hBeven : ((d / 4) &&& UPPER_BITS) % 2 = 0 := and_upper_even (d / 4)
  have ha1 : d &&& 1 < 4 := by
    have : d &&& 1 ≤ 1 := Nat.and_le_right
    omega
  have ha2 : d &&& 2 ≤ 2 := Nat.and_le_right
  have ha2e : (d &&& 2) % 2 = 0 := and_two_even d
  have hshift : (d &&& UPPER_BITS) >>> 1 = 2 * ((d / 4) &&& UPPER_BITS) + (d &&& 2) / 2 := by
    rw [Nat.shiftRight_one, hU]
    omega
  have hB2 : ((d / 4) &&& UPPER_BITS) >>> 1 = ((d / 4) &&& UPPER_BITS) / 2 :=
    Nat.shiftRight_one _
  rw [hL, hshift, hB2]
  have h2B : 2 * ((d / 4) &&& UPPER_BITS) = 4 * (((d / 4) &&& UPPER_BITS) / 2) := by
    omega
  rw [h2B]
  rw [← or_small_add ((d / 4) &&& LOWER_BITS) ha1,
    ← or_small_add (((d / 4) &&& UPPER_BITS) / 2) (show (d &&& 2) / 2 < 4 by omega)]
  have assoc : (4 * ((d / 4) &&& LOWER_BITS) ||| (d &&& 1))
        ||| (4 * (((d / 4) &&& UPPER_BITS) / 2) ||| ((d &&& 2) / 2))
      = (4 * ((d / 4) &&& LOWER_BITS) ||| 4 * (((d / 4) &&& UPPER_BITS) / 2))
        ||| ((d &&& 1) ||| ((d &&& 2) / 2)) := by
    rw [Nat.or_assoc, Nat.or_assoc]
    congr 1
    rw [← Nat.or_assoc, ← Nat.or_assoc]
    congr 1
    rw [Nat.or_comm]
  rw [assoc, four_mul_or]
  have hc0 : (d &&& 1) ||| ((d &&& 2) / 2) < 4 := by
    have h4 : (4 : Nat) = 2 ^ 2 := by norm_num
    rw [h4]
    exact Nat.or_lt_two_pow (by omega) (by omega)
  rw [or_small_add _ hc0]
  ring

theorem c0_cases (d : Nat) :
    (d &&& 1) ||| ((d &&& 2) / 2) = if d % 4 ≠ 0 then 1 else 0 := by
  have h1 : d &&& 1 = d % 2 := Nat.and_one_is_mod d
  have h2 : d &&& 2 = 2 * ((d / 2) % 2) := by
    have ha := Nat.and_div_two (a := d) (b := 2)
    rw [show (2 : Nat) / 2 = 1 from rfl, Nat.and_one_is_mod] at ha
    have hb : (d &&& 2) % 2 = 0 := and_two_even d
    have hc : d &&& 2 ≤ 2 := Nat.and_le_right
    omega
  rw [h1, h2]
  have h3 : 2 * ((d / 2) % 2) / 2 = (d / 2) % 2 := by omega
  rw [h3]
  have e1 : d % 2 = d % 4 % 2 := (Nat.mod_mod_of_dvd d (by norm_num)).symm
  have e2 : (d / 2) % 2 = d % 4 / 2 := by omega
  rw [e1, e2]
  have hcase : d % 4 = 0 ∨ d % 4 = 1 ∨ d % 4 = 2 ∨ d % 4 = 3 := by omega
  rcases hcase with h | h | h | h <;> (rw [h]; decide)

theorem comb_count : ∀ (n : Nat), n ≤ 32 → ∀ d, d < 4 ^ n →
    count_ones ((d &&& LOWER_BITS) ||| ((d &&& UPPER_BITS) >>> 1))
      = List.countP (fun i => decide (d / 4 ^ i % 4 ≠ 0)) (List.range n) := by
  intro n
  induction n with
  | zero =>
    intro _ d hd
    have hd0 : d = 0 := by
      have : (4 : Nat) ^ 0 = 1 := by norm_num
      omega
    subst hd0
    decide
  | succ n ih =>
    intro hn d hd
    have hd64 : d < 2 ^ 64 := by
      have h1 : (4 : Nat) ^ (n + 1) ≤ 4 ^ 32 := Nat.pow_le_pow_right (by norm_num) (by omega)
      have h2 : (4 : Nat) ^ 32 = 2 ^ 64 := by norm_num
      omega
    rw [comb_step hd64, c0_cases, Nat.add_comm]
    rw [count_ones_step _ _ (by split_ifs <;> omega)]
    have hd4 : d / 4 < 4 ^ n := by
      have h3 : (4 : Nat) ^ (n + 1) = 4 ^ n * 4 := by ring
      omega
    rw [ih (by omega) (d / 4) hd4]
    rw [List.range_succ_eq_map, List.countP_cons, List.countP_map]
    have hcomp : ((fun i => decide (d / 4 ^ i % 4 ≠ 0)) ∘ Nat.succ)
        = fun i => decide (d / 4 / 4 ^ i % 4 ≠ 0) := by
      funext i
      simp only [Function.comp]
      rw [decide_eq_decide]
      have h5 : d / 4 ^ (Nat.succ i) = d / 4 / 4 ^ i := by
        rw [Nat.div_div_eq_div_mul]
        congr 1
        ring_nf
        rw [pow_succ, Nat.mul_comm]
      rw [h5]
    rw [hcomp]
    simp only [pow_zero, Nat.div_one]
    by_cases h6 : d % 4 = 0 <;> (simp [h6]; try omega)

/- ------------------------------------------------------------------ -/
/- xor field lemmas                                                    -/
/- ------------------------------------------------------------------ -/

theorem xor_div_pow (a b k : Nat) : (a ^^^ b) / 2 ^ k = (a / 2 ^ k) ^^^ (b / 2 ^ k) := by
  induction k with
  | zero => simp
  | succ k ih =>
    have h1 : ∀ x : Nat, x / 2 ^ (k + 1) = x / 2 ^ k / 2 := by
      intro x
      rw [Nat.div_div_eq_div_mul, pow_succ]
    rw [h1, h1, h1, ih, Nat.xor_div_two]

theorem mod_four_eq_and (x : Nat) : x % 4 = x &&& 3 := by
  rw [show (3 : Nat) = 2 ^ 2 - 1 from rfl, Nat.and_pow_two_sub_one_eq_mod]

theorem xor_mod_four (a b : Nat) : (a ^^^ b) % 4 = (a % 4) ^^^ (b % 4) := by
  rw [mod_four_eq_and, mod_four_eq_and, mod_four_eq_and, Nat.and_xor_distrib_right]

theorem field_xor (u v i : Nat) :
    (u / 4 ^ i % 4) ^^^ (v / 4 ^ i % 4) = (u ^^^ v) / 4 ^ i % 4 := by
  rw [← xor_mod_four]
  congr 1
  rw [four_pow_eq_two_pow, xor_div_pow]

theorem field_mod_pow {i n : Nat} (x : Nat) (h : i < n) :
    (x % 4 ^ n) / 4 ^ i % 4 = x / 4 ^ i % 4 := by
  have hsplit : (4 : Nat) ^ n = 4 ^ i * 4 ^ (n - i) := by
    rw [← pow_add]
    congr 1
    omega
  rw [hsplit, Nat.mod_mul_right_div_self]
  exact Nat.mod_mod_of_dvd _ (dvd_pow_self 4 (by omega))

/- ------------------------------------------------------------------ -/
/- hdist_scalar characterization                                       -/
/- ------------------------------------------------------------------ -/

theorem hdist_scalar_count (u v n : Nat) (hn : n ≤ 32) :
    hdist_scalar u v n = .ok (List.countP
      (fun i => decide ((u >>> (i * 2)) &&& 3 ≠ (v >>> (i * 2)) &&& 3)) (List.range n)) := by
  have hfun : (fun i => decide ((u >>> (i * 2)) &&& 3 ≠ (v >>> (i * 2)) &&& 3))
      = fun i => decide (u / 4 ^ i % 4 ≠ v / 4 ^ i % 4) := by
    funext i
    rw [decide_eq_decide, field_eq, field_eq]
  rw [hfun]
  have hfield : ∀ i, (u / 4 ^ i % 4 = v / 4 ^ i % 4) ↔ ((u ^^^ v) / 4 ^ i % 4 = 0) := by
    intro i
    rw [← field_xor, Nat.xor_eq_zero]
  simp only [hdist_scalar]
  rw [if_neg (by omega)]
  by_cases h0 : n = 0 ∨ u = v
  · rw [if_pos h0]
    rcases h0 with h0 | h0
    · subst h0
      simp
    · subst h0
      congr 1
      rw [Eq.comm, List.countP_eq_zero]
      intro i _
      simp
  · rw [if_neg h0]
    have hmask : (if n * 2 = 64 then 2 ^ 64 - 1 else (1 <<< (n * 2)) - 1)
        = 4 ^ n - 1 := by
      by_cases he : n * 2 = 64
      · rw [if_pos he]
        have hn32 : n = 32 := by omega
        subst hn32
        norm_num
      · rw [if_neg he, Nat.shiftLeft_eq, one_mul]
        congr 1
        rw [four_pow_eq_two_pow, Nat.mul_comm]
    rw [hmask]
    have hDdef : (u ^^^ v) &&& (4 ^ n - 1) = (u ^^^ v) % 4 ^ n := by
      rw [four_pow_eq_two_pow, Nat.and_pow_two_sub_one_eq_mod]
    rw [hDdef]
    have hpow : (0 : Nat) < 4 ^ n := Nat.pos_pow_of_pos n (by norm_num)
    by_cases hdiff : (u ^^^ v) % 4 ^ n = 0
    · rw [if_pos hdiff]
      congr 1
      rw [Eq.comm, List.countP_eq_zero]
      intro i hi
      rw [List.mem_range] at hi
      simp only [decide_eq_true_eq, Decidable.not_not]
      rw [hfield i, ← field_mod_pow (u ^^^ v) hi, hdiff]
      simp
    · rw [if_neg hdiff]
      have hDlt : (u ^^^ v) % 4 ^ n < 4 ^ n := Nat.mod_lt _ hpow
      have hstrip : ∀ z : Nat, z ≤ (u ^^^ v) % 4 ^ n → z &&& (4 ^ n - 1) = z := by
        intro z hz
        rw [four_pow_eq_two_pow]
        exact Nat.and_pow_two_sub_one_of_lt_two_pow
          (by rw [← four_pow_eq_two_pow]; omega)
      rw [hstrip _ Nat.and_le_left, hstrip _ Nat.and_le_left]
      rw [comb_count n hn _ hDlt]
      congr 1
      apply List.countP_congr
      intro i hi
      rw [List.mem_range] at hi
      simp only [decide_eq_true_eq]
      rw [field_mod_pow (u ^^^ v) hi]
      constructor
      · intro hne hcon
        exact hne ((hfield i).mp hcon)
      · intro hne hcon
        exact hne ((hfield i).mpr hcon)

/- ------------------------------------------------------------------ -/
/- Stream hamming lemmas                                               -/
/- ------------------------------------------------------------------ -/

theorem chunkCode_field_succ (b : Nat) (rest : List Nat) (i : Nat) :
    chunkCode (b :: rest) / 4 ^ (i + 1) % 4 = chunkCode rest / 4 ^ i % 4 := by
  rw [chunkCode]
  have h4 : (4 : Nat) ^ (i + 1) = 4 * 4 ^ i := by ring
  rw [h4, ← Nat.div_div_eq_div_mul]
  congr 2
  have := tailLane_lt4 b
  omega

theorem countP_fields_chunks : ∀ (ca cb : List Nat), (∀ x ∈ ca, isValidBase x = true) →
    (∀ x ∈ cb, isValidBase x = true) → ca.length = cb.length →
    List.countP (fun i => decide ((chunkCode ca >>> (i * 2)) &&& 3
        ≠ (chunkCode cb >>> (i * 2)) &&& 3)) (List.range ca.length)
      = mismatchCount ca cb := by
  intro ca
  induction ca with
  | nil =>
    intro cb _ _ h
    have : cb = [] := List.length_eq_zero.mp h.symm
    subst this
    simp [mismatchCount]
  | cons x xs ih =>
    intro cb hva hvb hlen
    cases cb with
    | nil => simp at hlen
    | cons y ys =>
      have hx : isValidBase x = true := hva x (by simp)
      have hy : isValidBase y = true := hvb y (by simp)
      rw [show (x :: xs).length = xs.length + 1 from rfl, List.range_succ_eq_map,
        List.countP_cons, List.countP_map]
      have hcomp : ((fun i => decide ((chunkCode (x :: xs) >>> (i * 2)) &&& 3
            ≠ (chunkCode (y :: ys) >>> (i * 2)) &&& 3)) ∘ Nat.succ)
          = fun i => decide ((chunkCode xs >>> (i * 2)) &&& 3
            ≠ (chunkCode ys >>> (i * 2)) &&& 3) := by
        funext i
        simp only [Function.comp]
        rw [decide_eq_decide, field_eq, field_eq, field_eq, field_eq]
        rw [show Nat.succ i = i + 1 from rfl, chunkCode_field_succ, chunkCode_field_succ]
      rw [hcomp, ih ys (fun z hz => hva z (by simp [hz])) (fun z hz => hvb z (by simp [hz]))
        (by simpa using hlen)]
      have hhead : (decide ((chunkCode (x :: xs) >>> (0 * 2)) &&& 3
            ≠ (chunkCode (y :: ys) >>> (0 * 2)) &&& 3))
          = decide (toUpperAscii x ≠ toUpperAscii y) := by
        rw [decide_eq_decide, field_eq, field_eq]
        rw [chunkCode_field (x :: xs) 0 (by simp), chunkCode_field (y :: ys) 0 (by simp)]
        rw [List.getD_cons_zero, List.getD_cons_zero]
        constructor
        · intro hne hcon
          exact hne ((tailLane_inj hx hy).mpr hcon)
        · intro hne hcon
          exact hne ((tailLane_inj hx hy).mp hcon)
      rw [hhead]
      rw [show mismatchCount (x :: xs) (y :: ys)
        = (if toUpperAscii x ≠ toUpperAscii y then 1 else 0) + mismatchCount xs ys from rfl]
      by_cases hu : toUpperAscii x = toUpperAscii y
      · simp [hu]
      · simp [hu]
        omega

theorem hdistFold_ok (ps : List (Nat × Nat)) : ∀ (t : Nat),
    hdistFold ps t = .ok (t + (ps.map (fun p => List.countP
      (fun i => decide ((p.1 >>> (i * 2)) &&& 3 ≠ (p.2 >>> (i * 2)) &&& 3))
      (List.range 32))).sum) := by
  induction ps with
  | nil => intro t; simp [hdistFold]
  | cons p ps ih =>
    intro t
    rw [hdistFold, hdist_scalar_count _ _ 32 le_rfl]
    simp only
    rw [ih, List.map_cons, List.sum_cons, Nat.add_assoc]

theorem hdist_formula (wsa wsb : List Nat) (n : Nat)
    (ha : (n + 31) / 32 ≤ wsa.length) (hb : (n + 31) / 32 ≤ wsb.length) :
    hdist wsa wsb n = .ok (hdistValue wsa wsb n) := by
  simp only [hdist, hdistValue]
  rw [if_neg (by omega)]
  rw [hdistFold_ok]
  simp only [Nat.zero_add]
  by_cases hrem : n % 32 > 0
  · rw [if_pos hrem, if_pos hrem, hdist_scalar_count _ _ _ (by omega)]
  · rw [if_neg hrem, if_neg hrem]
    simp

theorem hdistValue_cons {n : Nat} (h : 32 < n) (wa wb : Nat) (la lb : List Nat) :
    hdistValue (wa :: la) (wb :: lb) n
      = List.countP (fun i => decide ((wa >>> (i * 2)) &&& 3 ≠ (wb >>> (i * 2)) &&& 3))
          (List.range 32)
        + hdistValue la lb (n - 32) := by
  unfold hdistValue
  have hd : n / 32 = (n - 32) / 32 + 1 := by omega
  have hm : n % 32 = (n - 32) % 32 := by omega
  rw [hd, hm, List.zip_cons_cons, List.take_succ_cons, List.map_cons, List.sum_cons]
  rw [List.getD_cons_succ, List.getD_cons_succ]
  ring

theorem mismatchCount_append : ∀ (c1 c2 t1 t2 : List Nat), c1.length = c2.length →
    mismatchCount (c1 ++ t1) (c2 ++ t2) = mismatchCount c1 c2 + mismatchCount t1 t2 := by
  intro c1
  induction c1 with
  | nil =>
    intro c2 t1 t2 h
    have : c2 = [] := List.length_eq_zero.mp h.symm
    subst this
    simp [mismatchCount]
  | cons x xs ih =>
    intro c2 t1 t2 h
    cases c2 with
    | nil => simp at h
    | cons y ys =>
      show (if toUpperAscii x ≠ toUpperAscii y then 1 else 0) + mismatchCount (xs ++ t1) (ys ++ t2)
        = ((if toUpperAscii x ≠ toUpperAscii y then 1 else 0) + mismatchCount xs ys)
          + mismatchCount t1 t2
      rw [ih ys t1 t2 (by simpa using h)]
      ring

theorem hdistValue_encWords : ∀ (N : Nat) (a b : List Nat), a.length ≤ N →
    (∀ x ∈ a, isValidBase x = true) → (∀ x ∈ b, isValidBase x = true) →
    a.length = b.length → a ≠ [] →
    hdistValue (encWords a) (encWords b) a.length = mismatchCount a b := by
  intro N
  induction N with
  | zero =>
    intro a b h _ _ _ hne
    have hs : a.length = 0 := by omega
    rw [List.length_eq_zero] at hs
    exact absurd hs hne
  | succ N ih =>
    intro a b h hva hvb hlen hne
    have hpos : 1 ≤ a.length := List.length_pos.mpr hne
    by_cases h32 : a.length ≤ 32
    · rw [encWords_eq_small h32, encWords_eq_small (by omega)]
      unfold hdistValue
      by_cases hq : a.length = 32
      · rw [hq]
        have hc := countP_fields_chunks a b hva hvb hlen
        rw [hq] at hc
        simpa [List.zip_cons_cons] using hc
      · have hdiv : a.length / 32 = 0 := by omega
        have hmod : a.length % 32 = a.length := by omega
        rw [hdiv, hmod, if_pos (by omega)]
        simp only [List.take_zero, List.map_nil, List.sum_nil, Nat.zero_add,
          List.getD_cons_zero]
        exact countP_fields_chunks a b hva hvb hlen
    · have hbl : 32 < b.length := by omega
      rw [encWords_eq_big (by omega), encWords_eq_big hbl]
      rw [hdistValue_cons (by omega)]
      have hvta : ∀ x ∈ a.take 32, isValidBase x = true :=
        fun x hx => hva x (List.mem_of_mem_take hx)
      have hvtb : ∀ x ∈ b.take 32, isValidBase x = true :=
        fun x hx => hvb x (List.mem_of_mem_take hx)
      have htla : (a.take 32).length = 32 := by
        rw [List.length_take]
        exact min_eq_left (by omega)
      have htlb : (b.take 32).length = 32 := by
        rw [List.length_take]
        exact min_eq_left (by omega)
      have hhead := countP_fields_chunks (a.take 32) (b.take 32) hvta hvtb (by omega)
      rw [htla] at hhead
      rw [hhead]
      have hdne : a.drop 32 ≠ [] := by
        rw [← List.length_pos, List.length_drop]
        omega
      have hrec := ih (a.drop 32) (b.drop 32) (by rw [List.length_drop]; omega)
        (fun x hx => hva x (List.mem_of_mem_drop hx))
        (fun x hx => hvb x (List.mem_of_mem_drop hx))
        (by rw [List.length_drop, List.length_drop]; omega) hdne
      rw [List.length_drop] at hrec
      rw [hrec]
      have hsplit := mismatchCount_append (a.take 32) (b.take 32) (a.drop 32) (b.drop 32)
        (by omega)
      rw [List.take_append_drop, List.take_append_drop] at hsplit
      rw [hsplit]

/- ------------------------------------------------------------------ -/
/- Decode length-check lemma                                           -/
/- ------------------------------------------------------------------ -/

theorem from_2bit_multi_short {ebuf : List Nat} {n : Nat} (hn : 1 ≤ n)
    (hshort : ebuf.length < (n + 31) / 32) (dbuf : List Nat) :
    from_2bit_multi ebuf n dbuf = some (.error (.InvalidLength n)) := by
  simp only [from_2bit_multi]
  rw [if_neg (by omega)]
  rw [tryForEach32_ok]
  simp only
  have hnone : ebuf[(n + 31) / 32 - 1]? = none :=
    List.getElem?_eq_none (by omega)
  rw [hnone]

/- ------------------------------------------------------------------ -/
/- Split lemmas                                                        -/
/- ------------------------------------------------------------------ -/

theorem splitRightLoop_len : ∀ (ws : List Nat) (rs carry : Nat) (rbuf : List Nat),
    (splitRightLoop ws rs carry rbuf).1.length = rbuf.length + ws.length := by
  intro ws
  induction ws with
  | nil => intro rs carry rbuf; simp [splitRightLoop]
  | cons w rest ih =>
    intro rs carry rbuf
    rw [splitRightLoop]
    simp only [ih, List.length_append, List.length_cons, List.length_nil]
    omega

theorem split_packed_general {ebuf : List Nat} {slen idx : Nat} (lbuf rbuf : List Nat)
    (hlen : ebuf.length = (slen + 31) / 32) (h0 : 0 < idx) (h1 : idx < slen) :
    split_packed ebuf slen idx lbuf rbuf = some (.ok (),
      ebuf.take (idx / 32) ++ [ebuf.getD (idx / 32) 0 &&&
        (if (idx % 32) * 2 = 0 then 0 else (1 <<< ((idx % 32) * 2)) - 1)],
      (splitRightLoop (ebuf.drop (idx / 32)) ((idx % 32) * 2) 0 []).1) := by
  have hslen2 : 2 ≤ slen := by omega
  have hblen : 1 ≤ ebuf.length := by omega
  have hchunk : idx / 32 < ebuf.length := by omega
  simp only [split_packed]
  rw [if_neg (by omega), if_neg (by omega), if_neg (by omega)]
  have hemp : ¬(ebuf.isEmpty = true) := by
    cases ebuf with
    | nil => simp at hblen
    | cons a l => simp [List.isEmpty]
  rw [if_neg hemp]
  cases hW : ebuf[idx / 32]? with
  | none =>
    exfalso
    have := List.getElem?_eq_none_iff.mp hW
    omega
  | some w =>
    have hbuf1 : (if idx / 32 > 0 ∧ idx / 32 ≤ ebuf.length then ebuf.take (idx / 32) else [])
        = ebuf.take (idx / 32) := by
      by_cases hc : idx / 32 > 0
      · rw [if_pos ⟨hc, by omega⟩]
      · have hz : idx / 32 = 0 := by omega
        rw [if_neg (by omega), hz, List.take_zero]
    rw [hbuf1]
    have hgetD : ebuf.getD (idx / 32) 0 = w := by
      rw [List.getD_eq_getElem?_getD, hW]
      rfl
    rw [hgetD]
    have hrc : (if idx = slen then 0 else (slen - idx + 31) / 32) = (slen - idx + 31) / 32 := by
      rw [if_neg (by omega)]
    rw [hrc]
    have hrlen : (splitRightLoop (ebuf.drop (idx / 32)) ((idx % 32) * 2) 0 []).1.length
        = ebuf.length - idx / 32 := by
      rw [splitRightLoop_len, List.length_drop]
      simp
    have hpush : ¬((splitRightLoop (ebuf.drop (idx / 32)) ((idx % 32) * 2) 0 []).2 ≠ 0
        ∧ (splitRightLoop (ebuf.drop (idx / 32)) ((idx % 32) * 2) 0 []).1.length
          < (slen - idx + 31) / 32) := by
      rw [hrlen]
      intro hcon
      have := hcon.2
      omega
    rw [if_neg hpush]

/- ------------------------------------------------------------------ -/
/- Claims                                                              -/
/- ------------------------------------------------------------------ -/

/-- C1: for every ASCII sequence s whose bytes are all in {A,a,C,c,G,g,T,t}
and whose length is between 1 and 10000, encoding with encode
(encode_stream) and then decoding with decode (from_2bit_multi) at
n = len(s) yields exactly uppercase(s). -/
theorem C1_encode_decode_roundtrip (s : List Nat)
    (hv : ∀ b ∈ s, isValidBase b = true) (h1 : 1 ≤ s.length) (_hbound : s.length ≤ 10000) :
    ∃ ws, encode s = some (.ok ws)
      ∧ from_2bit_multi ws s.length [] = some (.ok (uppercase s)) := by
  have hne : s ≠ [] := by
    intro h
    rw [h] at h1
    simp at h1
  refine ⟨encWords s, encode_valid hv hne, ?_⟩
  simpa using decode_encWords hv hne []

/-- Witness for C1 at the concrete input "AcGt". -/
theorem C1_encode_decode_roundtrip_witness :
    ∃ ws, encode [65, 99, 71, 116] = some (.ok ws)
      ∧ from_2bit_multi ws 4 [] = some (.ok [65, 67, 71, 84]) :=
  C1_encode_decode_roundtrip [65, 99, 71, 116] (by decide) (by decide) (by decide)

/-- C2: each SIMD kernel is bit-exact with the scalar kernel: the
NEON/AVX2/SSE2 as_2bit paths return the same Ok word or the same error as
the naive as_2bit on every byte slice, and the SIMD unpack paths append
the same bytes as the naive from_2bit for every word and base count. -/
theorem C2_simd_kernels_bit_exact :
    (∀ seq : List Nat, aarch64.as_2bit seq = naive.as_2bit seq)
    ∧ (∀ seq : List Nat, avx.as_2bit seq = naive.as_2bit seq)
    ∧ (∀ seq : List Nat, sse.as_2bit seq = naive.as_2bit seq)
    ∧ (∀ (packed n : Nat) (s : List Nat),
        aarch64.from_2bit_simd packed n s = from_2bit packed n s)
    ∧ (∀ (packed n : Nat) (s : List Nat),
        avx.from_2bit_simd packed n s = from_2bit packed n s) :=
  ⟨aarch64_as_2bit_eq, avx_as_2bit_eq, sse_as_2bit_eq,
    aarch64_from_2bit_simd_eq, avx_from_2bit_simd_eq⟩

/-- C3: hamming_stream (hdist) applied to the encodings of two equal-length
valid sequences of length n ≥ 1 returns exactly the number of positions at
which they differ after case folding; hamming_word (hdist_scalar) on single
packed words with n ≤ 32 counts the 2-bit fields below position 2n that
differ. -/
theorem C3_hamming_distance_counts :
    (∀ (a b wa wb : List Nat),
      (∀ x ∈ a, isValidBase x = true) → (∀ x ∈ b, isValidBase x = true) →
      a.length = b.length → 1 ≤ a.length →
      encode a = some (.ok wa) → encode b = some (.ok wb) →
      hdist wa wb a.length = .ok (mismatchCount a b))
    ∧ (∀ (u v n : Nat), n ≤ 32 →
      hdist_scalar u v n = .ok (List.countP
        (fun i => decide ((u >>> (i * 2)) &&& 3 ≠ (v >>> (i * 2)) &&& 3))
        (List.range n))) := by
  constructor
  · intro a b wa wb hva hvb hlen hpos hea heb
    have hne : a ≠ [] := by
      intro h
      rw [h] at hpos
      simp at hpos
    have hneb : b ≠ [] := by
      intro h
      rw [h] at hlen
      have hz : a.length = 0 := by simpa using hlen
      omega
    have hwa : wa = encWords a := by
      have h := hea.symm.trans (encode_valid hva hne)
      simpa using h
    have hwb : wb = encWords b := by
      have h := heb.symm.trans (encode_valid hvb hneb)
      simpa using h
    rw [hwa, hwb]
    rw [hdist_formula _ _ _ (by rw [encWords_length hne])
      (by rw [encWords_length hneb, ← hlen])]
    congr 1
    exact hdistValue_encWords a.length a b le_rfl hva hvb hlen hne
  · intro u v n hn
    exact hdist_scalar_count u v n hn

/-- Witness for C3: "A" vs "T" at stream level, and the packed single-base
words 0 and 3 at word level. -/
theorem C3_hamming_distance_counts_witness :
    hdist [0] [3] 1 = .ok 1 ∧ hdist_scalar 0 3 1 = .ok 1 := by
  constructor
  · have h := C3_hamming_distance_counts.1 [65] [84] [0] [3]
      (by decide) (by decide) (by decide) (by decide) (by decide) (by decide)
    simpa using h
  · have h := C3_hamming_distance_counts.2 0 3 1 (by decide)
    simpa using h

/-- C4: evaluation of the failing input for the split/decode roundtrip
(P4).  The stream [2^64-1, 3] with 33 bases is the encoding of 33 'T's; a
split at index 1 produces a right buffer whose first word has its top
2-bit field zeroed (the carry propagates the previous word's low bits
instead of the next word's), so decoding left(1) ++ right(32) ends in 'A'
while decoding the original stream gives 33 'T's. -/
theorem C4_split_roundtrip_divergence :
    encode (List.replicate 33 84) = some (.ok [2 ^ 64 - 1, 3])
    ∧ split_packed [2 ^ 64 - 1, 3] 33 1 [] []
        = some (.ok (), [3], [2 ^ 62 - 1, 3 * 2 ^ 62])
    ∧ from_2bit_multi [3] 1 [] = some (.ok [84])
    ∧ from_2bit_multi [2 ^ 62 - 1, 3 * 2 ^ 62] 32 []
        = some (.ok (List.replicate 31 84 ++ [65]))
    ∧ from_2bit_multi [2 ^ 64 - 1, 3] 33 [] = some (.ok (List.replicate 33 84))
    ∧ [84] ++ (List.replicate 31 84 ++ [65]) ≠ List.replicate 33 84 :=
  ⟨by decide, by decide, by decide, by decide, by decide, by decide⟩

/-- C5 (counterexample to the stated right-buffer length): on the
conformant stream of 33 'A's ([0,0] with n_total = 33) split at idx = 1,
the right buffer holds 2 words while ⌈(33-1)/32⌉ = 1. -/
theorem C5_right_length_counterexample :
    encode (List.replicate 33 65) = some (.ok [0, 0])
    ∧ split_packed [0, 0] 33 1 [] [] = some (.ok (), [0], [0, 0])
    ∧ ¬((2 : Nat) = (33 - 1 + 31) / 32) :=
  ⟨by decide, by decide, by decide⟩

/-- C5 (amended): for every split in the general case 0 < idx < n_total
over a conformant stream, after split_packed returns Ok the left buffer
holds exactly idx/32 + 1 words, the last of which is words[idx/32] masked
to its low 2*(idx mod 32) bits (zero when idx is word-aligned), and the
right buffer holds exactly ⌈n_total/32⌉ - ⌊idx/32⌋ words. -/
theorem C5_split_buffer_layout (ebuf : List Nat) (slen idx : Nat) (lbuf rbuf : List Nat)
    (hlen : ebuf.length = (slen + 31) / 32) (h0 : 0 < idx) (h1 : idx < slen) :
    ∃ lOut rOut,
      split_packed ebuf slen idx lbuf rbuf = some (.ok (), lOut, rOut)
      ∧ lOut = ebuf.take (idx / 32) ++ [ebuf.getD (idx / 32) 0 &&&
          (if (idx % 32) * 2 = 0 then 0 else (1 <<< ((idx % 32) * 2)) - 1)]
      ∧ lOut.length = idx / 32 + 1
      ∧ rOut.length = (slen + 31) / 32 - idx / 32 := by
  refine ⟨_, _, split_packed_general lbuf rbuf hlen h0 h1, rfl, ?_, ?_⟩
  · rw [List.length_append, List.length_take]
    have : idx / 32 < ebuf.length := by omega
    simp
    omega
  · rw [splitRightLoop_len, List.length_drop, hlen]
    simp

/-- Witness for the amended C5 on a 40-base two-word stream split at 7. -/
theorem C5_split_buffer_layout_witness :
    ∃ lOut rOut,
      split_packed [0, 0] 40 7 [] [] = some (.ok (), lOut, rOut)
      ∧ lOut = [0] ∧ lOut.length = 1 ∧ rOut.length = 2 :=
  C5_split_buffer_layout [0, 0] 40 7 [] [] (by decide) (by decide) (by decide)

/-- C6: pack_word (as_2bit) returns SequenceTooLong(len) for every input
longer than 32 bytes; for inputs of length ≤ 32 containing an
out-of-alphabet byte it returns InvalidBase(b) with b the leftmost
offender (find? scans left to right); on all other inputs of length ≤ 32
it returns Ok.  Stated for the naive kernel and all three SIMD kernels. -/
theorem C6_pack_word_errors (seq : List Nat) :
    (seq.length > 32 →
      naive.as_2bit seq = .error (.SequenceTooLong seq.length)
      ∧ aarch64.as_2bit seq = .error (.SequenceTooLong seq.length)
      ∧ avx.as_2bit seq = .error (.SequenceTooLong seq.length)
      ∧ sse.as_2bit seq = .error (.SequenceTooLong seq.length))
    ∧ (seq.length ≤ 32 → ∀ b, seq.find? (fun x => !(isValidBase x)) = some b →
      naive.as_2bit seq = .error (.InvalidBase b)
      ∧ aarch64.as_2bit seq = .error (.InvalidBase b)
      ∧ avx.as_2bit seq = .error (.InvalidBase b)
      ∧ sse.as_2bit seq = .error (.InvalidBase b))
    ∧ (seq.length ≤ 32 → seq.find? (fun x => !(isValidBase x)) = none →
      ∃ w, naive.as_2bit seq = .ok w
      ∧ aarch64.as_2bit seq = .ok w
      ∧ avx.as_2bit seq = .ok w
      ∧ sse.as_2bit seq = .ok w) := by
  refine ⟨?_, ?_, ?_⟩
  · intro h
    have hn : naive.as_2bit seq = .error (.SequenceTooLong seq.length) := by
      unfold naive.as_2bit
      rw [if_pos h]
    exact ⟨hn, by rw [aarch64_as_2bit_eq]; exact hn,
      by rw [avx_as_2bit_eq]; exact hn, by rw [sse_as_2bit_eq]; exact hn⟩
  · intro h b hf
    have hn : naive.as_2bit seq = .error (.InvalidBase b) := by
      unfold naive.as_2bit
      rw [if_neg (by omega)]
      exact as2bitGo_err seq hf 0 0
    exact ⟨hn, by rw [aarch64_as_2bit_eq]; exact hn,
      by rw [avx_as_2bit_eq]; exact hn, by rw [sse_as_2bit_eq]; exact hn⟩
  · intro h hf
    have hv := find_none_valid hf
    have hn := naive_as_2bit_ok hv h
    exact ⟨chunkCode seq, hn, by rw [aarch64_as_2bit_eq]; exact hn,
      by rw [avx_as_2bit_eq]; exact hn, by rw [sse_as_2bit_eq]; exact hn⟩

/-- Witness for C6: a 33-byte input, "ACGN", and "ACGT". -/
theorem C6_pack_word_errors_witness :
    naive.as_2bit (List.replicate 33 65) = .error (.SequenceTooLong 33)
    ∧ naive.as_2bit [65, 67, 71, 78] = .error (.InvalidBase 78)
    ∧ ∃ w, naive.as_2bit [65, 67, 71, 84] = .ok w := by
  refine ⟨?_, ?_, ?_⟩
  · exact ((C6_pack_word_errors (List.replicate 33 65)).1 (by decide)).1
  · exact ((C6_pack_word_errors [65, 67, 71, 78]).2.1 (by decide) 78 (by decide)).1
  · obtain ⟨w, hw, _⟩ := (C6_pack_word_errors [65, 67, 71, 84]).2.2 (by decide) (by decide)
    exact ⟨w, hw⟩

/-- C7: the scalar from_2bit_multi returns InvalidLength(n) whenever fewer
than ⌈n/32⌉ words are supplied (for any n ≥ 1 and any output buffer); the
AVX2 from_2bit_multi_simd does not: on a word-aligned count with a short
buffer it silently succeeds with truncated output, and on a non-aligned
count it indexes out of bounds and panics. -/
theorem C7_decode_short_buffer :
    (∀ (ebuf : List Nat) (n : Nat) (dbuf : List Nat), 1 ≤ n →
      ebuf.length < (n + 31) / 32 →
      from_2bit_multi ebuf n dbuf = some (.error (.InvalidLength n)))
    ∧ avx.from_2bit_multi_simd [0] 64 [] = some (.ok (List.replicate 32 65))
    ∧ avx.from_2bit_multi_simd [] 5 [] = none :=
  ⟨fun ebuf n dbuf hn hs => from_2bit_multi_short hn hs dbuf, by decide, by decide⟩

/-- Witness for C7 at the empty buffer with n = 5. -/
theorem C7_decode_short_buffer_witness :
    from_2bit_multi [] 5 [] = some (.error (.InvalidLength 5)) :=
  C7_decode_short_buffer.1 [] 5 [] (by decide) (by decide)

/-- C8: evaluation of both stream codecs at the empty input.  Neither
returns Ok with empty output: encode evaluates `0..n_chunks - 1` with
n_chunks = 0, underflowing (modelled as a panic), and the scalar
from_2bit_multi does the same in `take(n_chunks - 1)` / `get(n_chunks - 1)`. -/
theorem C8_empty_input_panics :
    encode [] = none ∧ from_2bit_multi [] 0 [] = none :=
  ⟨rfl, rfl⟩

/-- C9: every value of the NucleotideError type defined in src/error.rs is
one of exactly five shapes — InvalidBase, SequenceTooLong, InvalidLength,
IndexOutOfBounds, InvalidRange.  There is no Unsupported variant. -/
theorem C9_error_taxonomy_five_variants (e : NucleotideError) :
    (∃ b, e = .InvalidBase b) ∨ (∃ l, e = .SequenceTooLong l)
    ∨ (∃ l, e = .InvalidLength l)
    ∨ (∃ i l, e = .IndexOutOfBounds i l)
    ∨ (∃ x y l, e = .InvalidRange x y l) := by
  cases e with
  | InvalidBase b => exact Or.inl ⟨b, rfl⟩
  | SequenceTooLong l => exact Or.inr (Or.inl ⟨l, rfl⟩)
  | InvalidLength l => exact Or.inr (Or.inr (Or.inl ⟨l, rfl⟩))
  | IndexOutOfBounds i l => exact Or.inr (Or.inr (Or.inr (Or.inl ⟨i, l, rfl⟩)))
  | InvalidRange x y l => exact Or.inr (Or.inr (Or.inr (Or.inr ⟨x, y, l, rfl⟩)))

/-- C10: when split_packed is called with idx > n_total it returns
IndexOutOfBounds{index: idx, length: n_total} before clearing either
output buffer, so both buffers retain exactly their call-time contents. -/
theorem C10_split_error_atomicity (ebuf : List Nat) (slen idx : Nat)
    (lbuf rbuf : List Nat) (h : slen < idx) :
    split_packed ebuf slen idx lbuf rbuf
      = some (.error (.IndexOutOfBounds idx slen), lbuf, rbuf) := by
  simp only [split_packed]
  rw [if_pos (by omega)]

/-- Witness for C10: out-of-range split leaves the prior buffer contents
[1,2] and [3] untouched. -/
theorem C10_split_error_atomicity_witness :
    split_packed [0] 4 5 [1, 2] [3]
      = some (.error (.IndexOutOfBounds 5 4), [1, 2], [3]) :=
  C10_split_error_atomicity [0] 4 5 [1, 2] [3] (by decide)
